import Mathlib

/-!
Verification of the `update_api_keys` migration utility.

The program scans a directory tree for model files, extracts the fields
`provider`, `contentType` and `recordId` from each file's text with
regular-expression search, resolves an API-key value from two static
tables (identity overrides by `recordId`, and a category mapping keyed by
the pair `(provider, contentType)`), and patches the file text by
inserting a `use_api_key` field line after each `contentType: "...",`
declaration and rewriting `MODEL_CONFIG.contentType)` call sites.

File contents are modelled as `List Char`.  Each regular expression used
by the program is deterministic (every quantified sub-pattern is followed
by a character that the quantified class cannot match, so greedy maximal
munch never backtracks); the matchers below implement that maximal-munch
reading directly.  Python's `\w` and `\s` classes are modelled by their
ASCII fragments (`[A-Za-z0-9_]` and `[ \t\n\v\f\r]`), which is exact for
ASCII file contents.  `re.sub` replaces every non-overlapping occurrence
scanning left to right; the substitution functions below are written with
an explicit fuel argument (initialised to the length of the input) so
that they are structurally recursive and evaluate inside the kernel.
-/

set_option maxRecDepth 16000

namespace UpdateApiKeys

/-- Double-quote character. -/
def dqc : Char := Char.ofNat 34

/-- Single-quote character. -/
def sqc : Char := Char.ofNat 39

/-- The quote class `["\x27"]` used by all four patterns. -/
def isQuoteCh (c : Char) : Bool := c = dqc || c = sqc

/-- ASCII fragment of the regex class `\s`. -/
def isSpaceCh (c : Char) : Bool :=
  c = ' ' || c = Char.ofNat 9 || c = Char.ofNat 10 || c = Char.ofNat 11 ||
  c = Char.ofNat 12 || c = Char.ofNat 13

/-- ASCII fragment of the regex class `\w`. -/
def isWordCh (c : Char) : Bool := c.isAlphanum || c = '_'

/-- Literal part of the provider pattern. -/
def provLit : List Char := "provider:".toList

/-- Literal part of the contentType pattern. -/
def ctLit : List Char := "contentType:".toList

/-- Literal part of the recordId pattern. -/
def ridLit : List Char := "recordId:".toList

/-- The substring tested by the idempotence guard (`'use_api_key:' in content`). -/
def s0 : List Char := "use_api_key:".toList

/-- The literal pattern of the second `re.sub` call. -/
def pMC : List Char := "MODEL_CONFIG.contentType)".toList

/-- The replacement of the second `re.sub` call. -/
def qMC : List Char := "MODEL_CONFIG.use_api_key)".toList

/-- `begins p l` holds when `p` is a prefix of `l`. -/
def begins : List Char → List Char → Bool
  | [], _ => true
  | _ :: _, [] => false
  | p :: ps, c :: cs => p = c && begins ps cs

/-- `containsL s l` holds when `s` occurs as a contiguous substring of `l`;
this models Python's `s in l` on strings. -/
def containsL (s : List Char) : List Char → Bool
  | [] => s.isEmpty
  | c :: cs => begins s (c :: cs) || containsL s cs

/-- Attempt of the pattern `lit` `\s*` `["\x27"]` `(V+)` `["\x27"]` at the head of
`l`, where `V` is the value class `valPred`; returns the captured group.
This is the shared shape of the three field-extraction regexes. -/
def matchFieldAt (lit : List Char) (valPred : Char → Bool) (l : List Char) :
    Option (List Char) :=
  if begins lit l then
    match (l.drop lit.length).dropWhile isSpaceCh with
    | [] => none
    | q1 :: r2 =>
      if isQuoteCh q1 then
        let w := r2.takeWhile valPred
        if w.isEmpty then none
        else
          match r2.drop w.length with
          | [] => none
          | q2 :: _ => if isQuoteCh q2 then some w else none
      else none
  else none

/-- `re.search`: scan left to right, return the first position's captured group. -/
def searchField (lit : List Char) (valPred : Char → Bool) : List Char → Option (List Char)
  | [] => none
  | c :: cs =>
    match matchFieldAt lit valPred (c :: cs) with
    | some w => some w
    | none => searchField lit valPred cs

/-- `re.search(r'provider:\s*["\x27](\w+)["\x27]', content)`, group 1. -/
def searchProviderL (content : List Char) : Option (List Char) :=
  searchField provLit isWordCh content

/-- `re.search(r'contentType:\s*["\x27]([^"\x27]+)["\x27]', content)`, group 1. -/
def searchContentTypeL (content : List Char) : Option (List Char) :=
  searchField ctLit (fun c => !isQuoteCh c) content

/-- `re.search(r'recordId:\s*["\x27]([^"\x27]+)["\x27]', content)`, group 1. -/
def searchRecordIdL (content : List Char) : Option (List Char) :=
  searchField ridLit (fun c => !isQuoteCh c) content

/-- Attempt of the anchor pattern `contentType:\s*["\x27][^"\x27]+["\x27],` at the
head of `l`; returns the length of the matched text. -/
def matchAnchorAt (l : List Char) : Option Nat :=
  if begins ctLit l then
    let r1 := l.drop ctLit.length
    let sp := r1.takeWhile isSpaceCh
    match r1.drop sp.length with
    | [] => none
    | q1 :: r2 =>
      if isQuoteCh q1 then
        let w := r2.takeWhile (fun c => !isQuoteCh c)
        if w.isEmpty then none
        else
          match r2.drop w.length with
          | [] => none
          | q2 :: r3 =>
            if isQuoteCh q2 then
              match r3 with
              | [] => none
              | c3 :: _ =>
                if c3 = ',' then
                  some (ctLit.length + sp.length + 1 + w.length + 1 + 1)
                else none
            else none
      else none
  else none

/-- Does the anchor pattern match at any position of `l`? -/
def searchAnchorAny : List Char → Bool
  | [] => false
  | c :: cs => (matchAnchorAt (c :: cs)).isSome || searchAnchorAny cs

/-- The replacement text inserted after an anchor match:
`\n  use_api_key: "<value>",` (the indentation is the fixed two spaces of
the replacement template, independent of the anchor's own indentation). -/
def insLine (v : List Char) : List Char :=
  Char.ofNat 10 :: ' ' :: ' ' :: ("use_api_key: ".toList ++ dqc :: v ++ [dqc, ','])

/-- Fuelled form of `re.sub(r'(contentType:\s*["\x27][^"\x27]+["\x27],)',
rf'\1\n  use_api_key: "{v}",', content)`: every non-overlapping anchor
match, scanned left to right, is kept and followed by the inserted line. -/
def subAnchorF (v : List Char) : Nat → List Char → List Char
  | _, [] => []
  | 0, l => l
  | f + 1, c :: cs =>
    match matchAnchorAt (c :: cs) with
    | some n => (c :: cs).take n ++ insLine v ++ subAnchorF v f ((c :: cs).drop n)
    | none => c :: subAnchorF v f cs

/-- The first `re.sub` of the patcher. -/
def subAnchor (v content : List Char) : List Char :=
  subAnchorF v content.length content

/-- Fuelled form of `re.sub(r'MODEL_CONFIG\.contentType\)',
r'MODEL_CONFIG.use_api_key)', content)`. -/
def subMCF : Nat → List Char → List Char
  | _, [] => []
  | 0, l => l
  | f + 1, c :: cs =>
    if begins pMC (c :: cs) then qMC ++ subMCF f ((c :: cs).drop pMC.length)
    else c :: subMCF f cs

/-- The second `re.sub` of the patcher. -/
def subMC (content : List Char) : List Char :=
  subMCF content.length content

/-- Both text substitutions, in the order the program applies them. -/
def applyValue (v content : List Char) : List Char :=
  subMC (subAnchor v content)

/-- `API_KEY_MAPPING`: category mapping from `(provider, contentType)`. -/
def API_KEY_MAPPING : List ((List Char × List Char) × List Char) :=
  [ (("kie_ai".toList, "image_editing".toList), "KIE_AI_API_KEY_IMAGE_EDITING".toList),
    (("kie_ai".toList, "image_to_video".toList), "KIE_AI_API_KEY_IMAGE_TO_VIDEO".toList),
    (("kie_ai".toList, "prompt_to_image".toList), "KIE_AI_API_KEY_PROMPT_TO_IMAGE".toList),
    (("kie_ai".toList, "prompt_to_video".toList), "KIE_AI_API_KEY_PROMPT_TO_VIDEO".toList),
    (("kie_ai".toList, "prompt_to_audio".toList), "KIE_AI_API_KEY_PROMPT_TO_AUDIO".toList),
    (("runware".toList, "prompt_to_image".toList), "RUNWARE_API_KEY_PROMPT_TO_IMAGE".toList),
    (("runware".toList, "image_editing".toList), "RUNWARE_API_KEY_IMAGE_EDITING".toList),
    (("runware".toList, "image_to_video".toList), "RUNWARE_API_KEY_IMAGE_TO_VIDEO".toList) ]

/-- `SPECIAL_MODELS`: identity overrides by `recordId`. -/
def SPECIAL_MODELS : List (List Char × List Char) :=
  [ ("8aac94cb-5625-47f4-880c-4f0fd8bd83a1".toList, "KIE_AI_API_KEY_VEO3".toList),
    ("a5c2ec16-6294-4588-86b6-7b4182601cda".toList, "KIE_AI_API_KEY_VEO3".toList),
    ("6e8a863e-8630-4eef-bdbb-5b41f4c883f9".toList, "KIE_AI_API_KEY_VEO3".toList),
    ("f8e9c7a5-9d4b-6f2c-8a1e-5d7b3c9f4a6e".toList, "KIE_AI_API_KEY_VEO3".toList),
    ("e9c8b7a6-8d5c-4f3e-9a2f-6d8b5c9e4a7f".toList, "KIE_AI_API_KEY_VEO3".toList),
    ("d7f8c5a3-9b2e-6f4d-8c9a-5e7b3a6d4f8c".toList, "KIE_AI_API_KEY_SORA2".toList),
    ("c6e5b4a3-5d2f-1c0e-6a9f-3d5b6c7e4a8f".toList, "KIE_AI_API_KEY_SORA2".toList),
    ("c7e9a5f3-8d4b-6f2c-9a1e-5d8b3c7f4a6e".toList, "KIE_AI_API_KEY_NANO_BANANA".toList),
    ("d2ffb834-fc59-4c80-bf48-c2cc25281fdd".toList, "KIE_AI_API_KEY_SEEDREAM_V4".toList),
    ("a6c8e4f7-9d2b-5f3c-8a6e-7d4b9c5f3a8e".toList, "KIE_AI_API_KEY_SEEDREAM_V4".toList) ]

/-- Association-list lookup, modelling Python dict membership and indexing
on the two constant tables. -/
def tabLookup {α : Type} [DecidableEq α] (k : α) : List (α × List Char) → Option (List Char)
  | [] => none
  | (k2, v) :: rest => if k = k2 then some v else tabLookup k rest

/-- Every value either table can produce. -/
def KEY_VALUES : List (List Char) :=
  SPECIAL_MODELS.map Prod.snd ++ API_KEY_MAPPING.map Prod.snd

/-- Key resolution, lines 61-69 of the script: identity override first,
then the category mapping, else unresolved. -/
def resolveKey (provider ctype : List Char) (rid : Option (List Char)) :
    Option (List Char) :=
  match rid with
  | some r =>
    match tabLookup r SPECIAL_MODELS with
    | some v => some v
    | none => tabLookup (provider, ctype) API_KEY_MAPPING
  | none => tabLookup (provider, ctype) API_KEY_MAPPING

/-- Per-file outcome of `process_model_file`:
`alreadyAnnotated` is the early return on the substring guard,
`ineligible` the return when provider or contentType is missing,
`unresolved` the warned no-mapping return, and `updated` carries the
rewritten contents the program writes back. -/
inductive FileOutcome where
  | alreadyAnnotated : FileOutcome
  | ineligible : FileOutcome
  | unresolved : List Char → List Char → FileOutcome
  | updated : List Char → FileOutcome
deriving DecidableEq

/-- `process_model_file`, as a function from file text to outcome. -/
def processModelFile (content : List Char) : FileOutcome :=
  if containsL s0 content then .alreadyAnnotated
  else
    match searchProviderL content, searchContentTypeL content with
    | some provider, some ctype =>
      match resolveKey provider ctype (searchRecordIdL content) with
      | some v => .updated (applyValue v content)
      | none => .unresolved provider ctype
    | some _, none => .ineligible
    | none, _ => .ineligible

/-- The contents left on disk for a given outcome (only `updated` writes). -/
def applyOutcome (o : FileOutcome) (content : List Char) : List Char :=
  match o with
  | .updated d => d
  | _ => content

/-- The contents of a file after one invocation on it. -/
def finalContent (content : List Char) : List Char :=
  applyOutcome (processModelFile content) content

/-- Did `process_model_file` return `True`? -/
def FileOutcome.isUpd : FileOutcome → Bool
  | .updated _ => true
  | _ => false

/-- The per-file console lines: `main` prints the Updated line for a `True`
return, and `process_model_file` itself prints the no-mapping warning;
the other two outcomes print nothing. -/
def outcomeLog (path : List Char) : FileOutcome → List (List Char)
  | .updated _ => ["✅ Updated: ".toList ++ path]
  | .unresolved p ct =>
    ["  ⚠️  No mapping for provider=".toList ++ p ++ ", contentType=".toList ++ ct]
  | .alreadyAnnotated => []
  | .ineligible => []

/-- The filename denylist of the walker. -/
def EXCLUDED : List (List Char) :=
  [ "index.ts".toList, "getKieApiKey.ts".toList,
    "getRunwareApiKey.ts".toList, "ModelFileGenerator.ts".toList ]

/-- Result of a whole run: the two counters, the resulting tree, the
per-file console lines, and whether the summary block was printed. -/
structure RunResult where
  updated : Nat
  skipped : Nat
  files : List (List Char × List Char)
  logs : List (List Char)
  summaryShown : Bool
deriving DecidableEq

/-- The loop of `main` over the candidate `(name, contents)` files, in
traversal order.  Denylisted names are passed over without counting. -/
def runFiles : List (List Char × List Char) → RunResult
  | [] => ⟨0, 0, [], [], true⟩
  | (name, c) :: rest =>
    let r := runFiles rest
    if name ∈ EXCLUDED then
      ⟨r.updated, r.skipped, (name, c) :: r.files, r.logs, true⟩
    else
      let o := processModelFile c
      ⟨(if o.isUpd then r.updated + 1 else r.updated),
       (if o.isUpd then r.skipped else r.skipped + 1),
       (name, applyOutcome o c) :: r.files,
       outcomeLog name o ++ r.logs, true⟩

/-- `main`: `tree` is the list of `*.ts` files below `src/lib/models/locked`
in traversal order.  When the root directory does not exist, `rootExists`
is false and the walk yields no candidates: CPython's `pathlib` glob
machinery first tests `is_dir()` on the root and returns an empty iterator
for a missing directory, so `main` raises nothing and still prints the
summary block. -/
def runMain (rootExists : Bool) (tree : List (List Char × List Char)) : RunResult :=
  if rootExists then runFiles tree
  else ⟨0, 0, tree, [], true⟩

/-! ### Prefix and substring infrastructure -/

theorem begins_nil (l : List Char) : begins [] l = true := by
  cases l <;> rfl

theorem begins_cons {p c : Char} {ps cs : List Char} :
    begins (p :: ps) (c :: cs) = true ↔ p = c ∧ begins ps cs = true := by
  simp [begins]

theorem begins_iff {s l : List Char} :
    begins s l = true ↔ ∃ t, l = s ++ t := by
  induction s generalizing l with
  | nil => simp [begins_nil]
  | cons p ps ih =>
    cases l with
    | nil => simp [begins]
    | cons c cs =>
      rw [begins_cons]
      constructor
      · rintro ⟨rfl, h⟩
        obtain ⟨t, rfl⟩ := ih.mp h
        exact ⟨t, rfl⟩
      · rintro ⟨t, h⟩
        injection h with h1 h2
        exact ⟨h1.symm, ih.mpr ⟨t, h2⟩⟩

theorem begins_append_self (p t : List Char) : begins p (p ++ t) = true :=
  begins_iff.mpr ⟨t, rfl⟩

theorem begins_refl (p : List Char) : begins p p = true := by
  simpa using begins_append_self p []

theorem begins_length_le {s l : List Char} (h : begins s l = true) :
    s.length ≤ l.length := by
  obtain ⟨t, rfl⟩ := begins_iff.mp h
  simp

/-- A prefix of an append either sits inside the left part or splits across
the boundary. -/
theorem begins_append_split {s x y : List Char} (h : begins s (x ++ y) = true) :
    (s.length ≤ x.length ∧ begins s x = true) ∨
    (x.length < s.length ∧ s.take x.length = x ∧ begins (s.drop x.length) y = true) := by
  induction x generalizing s with
  | nil =>
    cases s with
    | nil => exact Or.inl ⟨Nat.le_refl 0, rfl⟩
    | cons a as => exact Or.inr ⟨Nat.succ_pos _, rfl, h⟩
  | cons c cs ih =>
    cases s with
    | nil => exact Or.inl ⟨Nat.zero_le _, rfl⟩
    | cons a as =>
      rw [List.cons_append, begins_cons] at h
      obtain ⟨rfl, h2⟩ := h
      rcases ih h2 with ⟨hle, hb⟩ | ⟨hlt, ht, hd⟩
      · exact Or.inl ⟨Nat.succ_le_succ hle, begins_cons.mpr ⟨rfl, hb⟩⟩
      · refine Or.inr ⟨Nat.succ_lt_succ hlt, ?_, hd⟩
        simpa [List.take] using ht

theorem containsL_nil {s : List Char} : containsL s [] = true ↔ s = [] := by
  simp [containsL, List.isEmpty_iff]

theorem containsL_cons {s : List Char} {c : Char} {cs : List Char} :
    containsL s (c :: cs) = true ↔
      begins s (c :: cs) = true ∨ containsL s cs = true := by
  simp [containsL]

theorem containsL_of_begins {s l : List Char} (h : begins s l = true) :
    containsL s l = true := by
  cases l with
  | nil =>
    cases s with
    | nil => rfl
    | cons a as => exact absurd h (by simp [begins])
  | cons c cs => exact containsL_cons.mpr (Or.inl h)

theorem containsL_append_right {s y : List Char} (x : List Char)
    (h : containsL s y = true) : containsL s (x ++ y) = true := by
  induction x with
  | nil => simpa using h
  | cons c cs ih => exact containsL_cons.mpr (Or.inr ih)

theorem containsL_append_left {s x : List Char} (y : List Char)
    (h : containsL s x = true) : containsL s (x ++ y) = true := by
  induction x with
  | nil =>
    rw [containsL_nil.mp h]
    cases y with
    | nil => rfl
    | cons c cs => exact containsL_cons.mpr (Or.inl (begins_nil _))
  | cons c cs ih =>
    rcases containsL_cons.mp h with hb | hc
    · obtain ⟨t, ht⟩ := begins_iff.mp hb
      exact containsL_of_begins (begins_iff.mpr ⟨t ++ y, by rw [ht]; simp⟩)
    · exact containsL_cons.mpr (Or.inr (ih hc))

/-- Occurrence decomposition: a substring of `x ++ y` occurs inside `x`,
inside `y`, or straddles the boundary, contributing a nonempty proper
prefix of itself as a suffix of `x`. -/
theorem containsL_append_split {s x y : List Char}
    (h : containsL s (x ++ y) = true) :
    containsL s x = true ∨ containsL s y = true ∨
      ∃ k x1, 0 < k ∧ k < s.length ∧ x = x1 ++ s.take k ∧
        begins (s.drop k) y = true := by
  induction x with
  | nil => exact Or.inr (Or.inl (by simpa using h))
  | cons c cs ih =>
    rw [List.cons_append, containsL_cons] at h
    rcases h with hb | hc
    · rcases begins_append_split (x := c :: cs) (by simpa using hb) with
        ⟨hle, hx⟩ | ⟨hlt, ht, hd⟩
      · exact Or.inl (containsL_of_begins hx)
      · exact Or.inr (Or.inr ⟨(c :: cs).length, [], Nat.succ_pos _, hlt,
          by simpa using ht.symm, hd⟩)
    · rcases ih hc with h1 | h2 | ⟨k, x1, hk0, hks, hx1, hbg⟩
      · exact Or.inl (containsL_cons.mpr (Or.inr h1))
      · exact Or.inr (Or.inl h2)
      · exact Or.inr (Or.inr ⟨k, c :: x1, hk0, hks, by simp [hx1], hbg⟩)

theorem takeWhile_all_append {p : Char → Bool} {u : List Char} (d : Char) (t : List Char)
    (hu : ∀ a ∈ u, p a = true) (hd : p d = false) :
    (u ++ d :: t).takeWhile p = u := by
  induction u with
  | nil => simp [List.takeWhile, hd]
  | cons a as ih =>
    have ha : p a = true := hu a (List.mem_cons_self a as)
    simp only [List.cons_append, List.takeWhile, ha]
    rw [show as.append (d :: t) = as ++ d :: t from rfl,
      ih (fun b hb => hu b (List.mem_cons_of_mem a hb))]

theorem dropWhile_all_append {p : Char → Bool} {u : List Char} (d : Char) (t : List Char)
    (hu : ∀ a ∈ u, p a = true) (hd : p d = false) :
    (u ++ d :: t).dropWhile p = d :: t := by
  induction u with
  | nil => simp [List.dropWhile, hd]
  | cons a as ih =>
    have ha : p a = true := hu a (List.mem_cons_self a as)
    simp only [List.cons_append, List.dropWhile, ha]
    exact ih fun b hb => hu b (List.mem_cons_of_mem a hb)

/-! ### Substitution lemmas -/

theorem pMC_length : pMC.length = 25 := rfl

theorem matchAnchorAt_pos {l : List Char} {n : Nat}
    (h : matchAnchorAt l = some n) : 0 < n := by
  simp only [matchAnchorAt] at h
  repeat' split at h
  all_goals (first | (injection h with h2; omega) | exact absurd h (by simp))

theorem subAnchorF_zero (v l : List Char) : subAnchorF v 0 l = l := by
  cases l <;> rfl

theorem subMCF_zero (l : List Char) : subMCF 0 l = l := by
  cases l <;> rfl

theorem subAnchorF_fuel (v : List Char) :
    ∀ f g l, l.length ≤ f → l.length ≤ g → subAnchorF v f l = subAnchorF v g l := by
  intro f
  induction f with
  | zero =>
    intro g l hf _
    rw [List.length_eq_zero.mp (Nat.le_zero.mp hf)]
    cases g <;> rfl
  | succ f ih =>
    intro g l hf hg
    cases l with
    | nil => cases g <;> rfl
    | cons c cs =>
      cases g with
      | zero => simp at hg
      | succ g2 =>
        cases h : matchAnchorAt (c :: cs) with
        | none =>
          simp only [subAnchorF, h]
          rw [ih g2 cs (Nat.le_of_succ_le_succ hf) (Nat.le_of_succ_le_succ hg)]
        | some n =>
          have hn : 0 < n := matchAnchorAt_pos h
          have hlen : ((c :: cs).drop n).length ≤ f := by
            simp only [List.length_drop, List.length_cons]
            simp only [List.length_cons] at hf
            omega
          have hlen2 : ((c :: cs).drop n).length ≤ g2 := by
            simp only [List.length_drop, List.length_cons]
            simp only [List.length_cons] at hg
            omega
          simp only [subAnchorF, h]
          rw [ih g2 _ hlen hlen2]

theorem subMCF_fuel :
    ∀ f g l, l.length ≤ f → l.length ≤ g → subMCF f l = subMCF g l := by
  intro f
  induction f with
  | zero =>
    intro g l hf _
    rw [List.length_eq_zero.mp (Nat.le_zero.mp hf)]
    cases g <;> rfl
  | succ f ih =>
    intro g l hf hg
    cases l with
    | nil => cases g <;> rfl
    | cons c cs =>
      cases g with
      | zero => simp at hg
      | succ g2 =>
        cases h : begins pMC (c :: cs) with
        | true =>
          have hlen : ((c :: cs).drop pMC.length).length ≤ f := by
            simp only [List.length_drop, List.length_cons, pMC_length]
            simp only [List.length_cons] at hf
            omega
          have hlen2 : ((c :: cs).drop pMC.length).length ≤ g2 := by
            simp only [List.length_drop, List.length_cons, pMC_length]
            simp only [List.length_cons] at hg
            omega
          simp only [subMCF, h, if_true]
          rw [ih g2 _ hlen hlen2]
        | false =>
          simp only [subMCF, h, Bool.false_eq_true, if_false]
          rw [ih g2 cs (Nat.le_of_succ_le_succ hf) (Nat.le_of_succ_le_succ hg)]

theorem subAnchor_cons_match {v : List Char} {c : Char} {cs : List Char} {n : Nat}
    (h : matchAnchorAt (c :: cs) = some n) :
    subAnchor v (c :: cs) =
      (c :: cs).take n ++ insLine v ++ subAnchor v ((c :: cs).drop n) := by
  have hn : 0 < n := matchAnchorAt_pos h
  have h1 : ((c :: cs).drop n).length ≤ cs.length := by
    simp only [List.length_drop, List.length_cons]
    omega
  show subAnchorF v (cs.length + 1) (c :: cs) = _
  simp only [subAnchorF, h]
  rw [subAnchorF_fuel v cs.length ((c :: cs).drop n).length ((c :: cs).drop n)
    h1 (Nat.le_refl _)]
  rfl

theorem subAnchor_cons_nomatch {v : List Char} {c : Char} {cs : List Char}
    (h : matchAnchorAt (c :: cs) = none) :
    subAnchor v (c :: cs) = c :: subAnchor v cs := by
  show subAnchorF v (cs.length + 1) (c :: cs) = _
  simp only [subAnchorF, h]
  rfl

theorem subMC_cons_match {c : Char} {cs : List Char}
    (h : begins pMC (c :: cs) = true) :
    subMC (c :: cs) = qMC ++ subMC ((c :: cs).drop pMC.length) := by
  have h1 : ((c :: cs).drop pMC.length).length ≤ cs.length := by
    simp only [List.length_drop, List.length_cons, pMC_length]
    omega
  show subMCF (cs.length + 1) (c :: cs) = _
  simp only [subMCF, h, if_true]
  rw [subMCF_fuel cs.length ((c :: cs).drop pMC.length).length ((c :: cs).drop pMC.length)
    h1 (Nat.le_refl _)]
  rfl

theorem subMC_cons_nomatch {c : Char} {cs : List Char}
    (h : begins pMC (c :: cs) = false) :
    subMC (c :: cs) = c :: subMC cs := by
  show subMCF (cs.length + 1) (c :: cs) = _
  simp only [subMCF, h, Bool.false_eq_true, if_false]
  rfl

theorem subAnchor_id {v : List Char} :
    ∀ {l : List Char}, searchAnchorAny l = false → subAnchor v l = l := by
  intro l
  induction l with
  | nil => intro _; rfl
  | cons c cs ih =>
    intro h
    cases hm : matchAnchorAt (c :: cs) with
    | some n => simp [searchAnchorAny, hm] at h
    | none =>
      simp only [searchAnchorAny, hm, Option.isSome_none, Bool.false_or] at h
      rw [subAnchor_cons_nomatch hm, ih h]

theorem subMC_id :
    ∀ {l : List Char}, containsL pMC l = false → subMC l = l := by
  intro l
  induction l with
  | nil => intro _; rfl
  | cons c cs ih =>
    intro h
    have hb : begins pMC (c :: cs) = false := by
      cases hbs : begins pMC (c :: cs) with
      | false => rfl
      | true => rw [containsL_cons.mpr (Or.inl hbs)] at h; exact h
    have hc : containsL pMC cs = false := by
      cases hcs : containsL pMC cs with
      | false => rfl
      | true => rw [containsL_cons.mpr (Or.inr hcs)] at h; exact h
    rw [subMC_cons_nomatch hb, ih hc]

/-! ### Interaction of the two substitutions with the inserted line -/

theorem mem_of_head? {l : List Char} {a : Char} (h : l.head? = some a) : a ∈ l := by
  cases l with
  | nil => simp at h
  | cons c cs =>
    simp only [List.head?_cons, Option.some.injEq] at h
    simp [h]

theorem mem_of_getLast? {l : List Char} {a : Char} (h : l.getLast? = some a) : a ∈ l := by
  rw [← List.head?_reverse] at h
  have : a ∈ l.reverse := mem_of_head? h
  simpa using this

theorem getLast?_append_of_ne_nil {l1 l2 : List Char} (h : l2 ≠ []) :
    (l1 ++ l2).getLast? = l2.getLast? := by
  rw [List.getLast?_append]
  cases h2 : l2.getLast? with
  | none => exact absurd (List.getLast?_eq_none_iff.mp h2) h
  | some b => rfl

theorem begins_nonempty_head {s l : List Char} (h : begins s l = true)
    (hs : s ≠ []) : l.head? = s.head? := by
  cases s with
  | nil => exact absurd rfl hs
  | cons a as =>
    cases l with
    | nil => exact absurd h (by simp [begins])
    | cons c cs =>
      obtain ⟨rfl, -⟩ := begins_cons.mp h
      rfl

theorem comma_not_mem_pMC : ',' ∉ pMC := by decide

theorem newline_not_mem_pMC : Char.ofNat 10 ∉ pMC := by decide

theorem insLine_not_containsL_pMC :
    ∀ v ∈ KEY_VALUES, containsL pMC (insLine v) = false := by decide

theorem insLine_head (v : List Char) : (insLine v).head? = some (Char.ofNat 10) := rfl

theorem insLine_getLast (v : List Char) : (insLine v).getLast? = some ',' := by
  rw [← List.head?_reverse]
  simp [insLine]

theorem insLine_ne_nil (v : List Char) : insLine v ≠ [] := by simp [insLine]

theorem pMC_take_ne_nil {k : Nat} (hk : 0 < k) : pMC.take k ≠ [] := by
  intro h
  have := congrArg List.length h
  simp [List.length_take, pMC_length] at this
  omega

theorem pMC_drop_ne_nil {k : Nat} (hk : k < pMC.length) : pMC.drop k ≠ [] := by
  intro h
  have := congrArg List.length h
  simp [List.length_drop, pMC_length] at this
  rw [pMC_length] at hk
  omega

/-- Inserting the replacement line cannot create an occurrence of the
`MODEL_CONFIG.contentType)` pattern: the pattern contains neither a
newline (the first inserted character) nor a comma (the last), and it
does not occur inside the inserted line for any table value. -/
theorem containsL_pMC_ins {x y v : List Char} (hv : v ∈ KEY_VALUES)
    (h : containsL pMC (x ++ y) = false) :
    containsL pMC (x ++ insLine v ++ y) = false := by
  cases hc : containsL pMC (x ++ insLine v ++ y) with
  | false => rfl
  | true =>
    exfalso
    rw [List.append_assoc] at hc
    rcases containsL_append_split hc with h1 | h2 | ⟨k, x1, hk0, hks, hx1, hbg⟩
    · exact absurd (containsL_append_left y h1) (by simp [h])
    · rcases containsL_append_split h2 with h3 | h4 | ⟨k, x1, hk0, hks, hx1, hbg⟩
      · exact absurd h3 (by simp [insLine_not_containsL_pMC v hv])
      · exact absurd (containsL_append_right x h4) (by simp [h])
      · -- the occurrence would end after the inserted line's final comma
        have hlast : (pMC.take k).getLast? = some ',' := by
          rw [← getLast?_append_of_ne_nil (pMC_take_ne_nil hk0), ← hx1,
            insLine_getLast]
        exact comma_not_mem_pMC (List.take_subset k pMC (mem_of_getLast? hlast))
    · -- the occurrence would continue into the inserted line's newline
      have hhd : (insLine v ++ y).head? = some (Char.ofNat 10) := by
        cases hi : insLine v with
        | nil => exact absurd hi (insLine_ne_nil v)
        | cons c cs =>
          have := insLine_head v
          rw [hi] at this
          simpa using this
      have h2 : (pMC.drop k).head? = some (Char.ofNat 10) :=
        (begins_nonempty_head hbg (pMC_drop_ne_nil hks)).symm.trans hhd
      exact newline_not_mem_pMC (List.drop_subset k pMC (mem_of_head? h2))

theorem tabLookup_mem {α : Type} [DecidableEq α] {k : α} {v : List Char} :
    ∀ {tab : List (α × List Char)}, tabLookup k tab = some v → v ∈ tab.map Prod.snd := by
  intro tab
  induction tab with
  | nil => intro h; exact absurd h (by simp [tabLookup])
  | cons e rest ih =>
    intro h
    obtain ⟨k2, w⟩ := e
    by_cases hk : k = k2
    · simp only [tabLookup, if_pos hk, Option.some.injEq] at h
      simp [h]
    · simp only [tabLookup, if_neg hk] at h
      simp [ih h]

theorem resolveKey_mem {p ct v : List Char} {rid : Option (List Char)}
    (h : resolveKey p ct rid = some v) : v ∈ KEY_VALUES := by
  unfold resolveKey at h
  split at h
  · split at h
    · rename_i r w hs
      injection h with h2
      subst h2
      exact List.mem_append_left _ (tabLookup_mem hs)
    · exact List.mem_append_right _ (tabLookup_mem h)
  · exact List.mem_append_right _ (tabLookup_mem h)

/-! ### Shape of `subAnchor` on a decomposed input -/

theorem subAnchor_prefix_nomatch {v : List Char} :
    ∀ (a rest : List Char),
      (∀ i, i < a.length → matchAnchorAt ((a ++ rest).drop i) = none) →
      subAnchor v (a ++ rest) = a ++ subAnchor v rest := by
  intro a
  induction a with
  | nil => intro rest _; rfl
  | cons c a2 ih =>
    intro rest h
    have h0 : matchAnchorAt (c :: (a2 ++ rest)) = none := by
      simpa using h 0 (Nat.succ_pos _)
    rw [List.cons_append, subAnchor_cons_nomatch h0,
      ih rest (fun i hi => by simpa using h (i + 1) (Nat.succ_lt_succ hi)),
      List.cons_append]

theorem subAnchor_at_match {v m b : List Char}
    (hm : matchAnchorAt (m ++ b) = some m.length)
    (hb : searchAnchorAny b = false) :
    subAnchor v (m ++ b) = m ++ insLine v ++ b := by
  cases m with
  | nil =>
    have := matchAnchorAt_pos hm
    simp at this
  | cons c m2 =>
    rw [List.cons_append] at hm
    rw [List.cons_append, subAnchor_cons_match hm, ← List.cons_append,
      List.take_left (c :: m2) b, List.drop_left (c :: m2) b, subAnchor_id hb]

/-- Full shape of the patch on an input decomposed around its unique
anchor match: the match is kept, the fixed-indentation line is inserted
directly after it, and nothing else changes. -/
theorem applyValue_decomp {v a m b : List Char} (hv : v ∈ KEY_VALUES)
    (ha : ∀ i, i < a.length → matchAnchorAt ((a ++ (m ++ b)).drop i) = none)
    (hm : matchAnchorAt (m ++ b) = some m.length)
    (hb : searchAnchorAny b = false)
    (hmc : containsL pMC ((a ++ m) ++ b) = false) :
    applyValue v (a ++ (m ++ b)) = a ++ (m ++ (insLine v ++ b)) := by
  unfold applyValue
  rw [subAnchor_prefix_nomatch a (m ++ b) ha, subAnchor_at_match hm hb]
  have hmc2 : containsL pMC ((a ++ m) ++ insLine v ++ b) = false :=
    containsL_pMC_ins hv hmc
  have heq : a ++ (m ++ insLine v ++ b) = (a ++ m) ++ insLine v ++ b := by
    simp [List.append_assoc]
  rw [heq, subMC_id (by rw [List.append_assoc (a ++ m)] at hmc2 ⊢; exact hmc2)]
  simp [List.append_assoc]

/-! ### Outcome helpers -/

theorem processModelFile_already {c : List Char} (h : containsL s0 c = true) :
    processModelFile c = FileOutcome.alreadyAnnotated := by
  simp [processModelFile, h]

theorem processModelFile_updated_eq {c p ct v : List Char}
    (hskip : containsL s0 c = false)
    (hp : searchProviderL c = some p)
    (hct : searchContentTypeL c = some ct)
    (hres : resolveKey p ct (searchRecordIdL c) = some v) :
    processModelFile c = FileOutcome.updated (applyValue v c) := by
  simp [processModelFile, hskip, hp, hct, hres]

/-! ### Concrete file contents used by witnesses and counterexamples -/

/-- A model file carrying a VEO3 override recordId together with a
`(provider, contentType)` pair that is also a key of the category mapping. -/
def cC1 : List Char :=
  ("  recordId: \"8aac94cb-5625-47f4-880c-4f0fd8bd83a1\",\n  provider: \"kie_ai\",\n" ++
   "  contentType: \"prompt_to_video\",\n").toList

/-- A mapped file whose contentType declaration lacks a trailing comma, so
the anchor pattern of the insertion `re.sub` never matches. -/
def cC2 : List Char :=
  "provider: \"kie_ai\"\ncontentType: \"image_editing\"".toList

/-- A mapped file without recordId whose anchor line is indented with four
spaces. -/
def cC3 : List Char :=
  "  provider: \"kie_ai\",\n    contentType: \"image_editing\",\n".toList

/-- What the program produces for `cC3`: the inserted line carries the fixed
two-space indentation of the replacement template. -/
def cC3out : List Char :=
  ("  provider: \"kie_ai\",\n    contentType: \"image_editing\",\n" ++
   "  use_api_key: \"KIE_AI_API_KEY_IMAGE_EDITING\",\n").toList

/-- What the claim predicts for `cC3`: an inserted line matching the anchor
line's four-space indentation. -/
def cC3claim : List Char :=
  ("  provider: \"kie_ai\",\n    contentType: \"image_editing\",\n" ++
   "    use_api_key: \"KIE_AI_API_KEY_IMAGE_EDITING\",\n").toList

/-- A file whose only occurrence of `use_api_key:` sits inside a comment. -/
def cC4 : List Char := "// use_api_key: documented here\n".toList ++ cC1

/-- A mapped file with no recordId at all. -/
def cC5 : List Char :=
  "const x = 1\n  provider: \"kie_ai\",\n  contentType: \"image_editing\",\n".toList

/-- A file with provider and contentType extracted but no table entry. -/
def cC6 : List Char :=
  "  provider: \"acme\",\n  contentType: \"music_video\",\n".toList

/-- A file carrying an overriding recordId but no provider field. -/
def cC7 : List Char :=
  "  recordId: \"8aac94cb-5625-47f4-880c-4f0fd8bd83a1\",\n  contentType: \"prompt_to_video\",\n".toList

/-- A file that already declares the annotation field. -/
def cC9 : List Char :=
  "  use_api_key: \"X\",\n  provider: \"kie_ai\",\n  contentType: \"image_editing\",\n".toList

/-- A file whose provider value `a'b` holds a quote character: the
word-run `a` is truncated at the quote and still extracted. -/
def cC10 : List Char :=
  "recordId: ".toList ++ dqc :: "8aac94cb-5625-47f4-880c-4f0fd8bd83a1".toList ++
  dqc :: ",\nprovider: ".toList ++ dqc :: 'a' :: sqc :: 'b' :: dqc ::
  ",\ncontentType: ".toList ++ dqc :: "image_editing".toList ++ [dqc, ',']

/-! ### Claim theorems -/

/-- C1: whenever provider and contentType are both extracted and the
extracted recordId is a key of `SPECIAL_MODELS`, the value written into
the file is the override table's value for that recordId, even when the
`(provider, contentType)` pair is also a key of `API_KEY_MAPPING`. -/
theorem C1_identity_override_wins (content p ct r v w : List Char)
    (hskip : containsL s0 content = false)
    (hp : searchProviderL content = some p)
    (hct : searchContentTypeL content = some ct)
    (hr : searchRecordIdL content = some r)
    (hv : tabLookup r SPECIAL_MODELS = some v)
    (hw : tabLookup (p, ct) API_KEY_MAPPING = some w) :
    resolveKey p ct (searchRecordIdL content) = some v ∧
    processModelFile content = FileOutcome.updated (applyValue v content) := by
  have hres : resolveKey p ct (searchRecordIdL content) = some v := by
    rw [hr]
    simp [resolveKey, hv]
  exact ⟨hres, processModelFile_updated_eq hskip hp hct hres⟩

/-- Witness for C1: a file with recordId `8aac94cb-...`, provider `kie_ai`
and contentType `prompt_to_video` resolves to `KIE_AI_API_KEY_VEO3`, not
to the category mapping's `KIE_AI_API_KEY_PROMPT_TO_VIDEO`. -/
theorem C1_identity_override_wins_witness :
    tabLookup ("kie_ai".toList, "prompt_to_video".toList) API_KEY_MAPPING =
      some "KIE_AI_API_KEY_PROMPT_TO_VIDEO".toList ∧
    resolveKey "kie_ai".toList "prompt_to_video".toList (searchRecordIdL cC1) =
      some "KIE_AI_API_KEY_VEO3".toList ∧
    processModelFile cC1 =
      FileOutcome.updated (applyValue "KIE_AI_API_KEY_VEO3".toList cC1) := by
  have h := C1_identity_override_wins cC1 "kie_ai".toList "prompt_to_video".toList
    "8aac94cb-5625-47f4-880c-4f0fd8bd83a1".toList "KIE_AI_API_KEY_VEO3".toList
    "KIE_AI_API_KEY_PROMPT_TO_VIDEO".toList
    (by decide) (by decide) (by decide) (by decide) (by decide) (by decide)
  exact ⟨by decide, h.1, h.2⟩

/-- C5: when the extracted recordId (if any) is not a key of
`SPECIAL_MODELS` and the extracted `(provider, contentType)` pair is a key
of `API_KEY_MAPPING`, the value written is the mapping table's value. -/
theorem C5_category_mapping_used (content p ct v : List Char)
    (hskip : containsL s0 content = false)
    (hp : searchProviderL content = some p)
    (hct : searchContentTypeL content = some ct)
    (hr : ∀ r, searchRecordIdL content = some r → tabLookup r SPECIAL_MODELS = none)
    (hm : tabLookup (p, ct) API_KEY_MAPPING = some v) :
    processModelFile content = FileOutcome.updated (applyValue v content) := by
  have hres : resolveKey p ct (searchRecordIdL content) = some v := by
    cases hrid : searchRecordIdL content with
    | none => simp [resolveKey, hm]
    | some rr => simp [resolveKey, hr rr hrid, hm]
  exact processModelFile_updated_eq hskip hp hct hres

/-- Witness for C5: a `(kie_ai, image_editing)` file without recordId gets
the mapping value `KIE_AI_API_KEY_IMAGE_EDITING`. -/
theorem C5_category_mapping_used_witness :
    processModelFile cC5 =
      FileOutcome.updated (applyValue "KIE_AI_API_KEY_IMAGE_EDITING".toList cC5) := by
  refine C5_category_mapping_used cC5 "kie_ai".toList "image_editing".toList
    "KIE_AI_API_KEY_IMAGE_EDITING".toList (by decide) (by decide) (by decide) ?_ (by decide)
  intro r h
  rw [show searchRecordIdL cC5 = none from by decide] at h
  exact Option.noConfusion h

/-- C6: with both fields extracted but no override and no mapping entry,
the file is left unchanged, counted as skipped, and the console line names
the exact unmatched provider and contentType values. -/
theorem C6_unresolved_warns (content p ct path : List Char)
    (hskip : containsL s0 content = false)
    (hp : searchProviderL content = some p)
    (hct : searchContentTypeL content = some ct)
    (hr : ∀ r, searchRecordIdL content = some r → tabLookup r SPECIAL_MODELS = none)
    (hm : tabLookup (p, ct) API_KEY_MAPPING = none)
    (hpath : path ∉ EXCLUDED) :
    processModelFile content = FileOutcome.unresolved p ct ∧
    finalContent content = content ∧
    outcomeLog path (processModelFile content) =
      ["  ⚠️  No mapping for provider=".toList ++ p ++ ", contentType=".toList ++ ct] ∧
    (runFiles [(path, content)]).updated = 0 ∧
    (runFiles [(path, content)]).skipped = 1 ∧
    (runFiles [(path, content)]).files = [(path, content)] := by
  have hres : resolveKey p ct (searchRecordIdL content) = none := by
    cases hrid : searchRecordIdL content with
    | none => simp [resolveKey, hm]
    | some rr => simp [resolveKey, hr rr hrid, hm]
  have ho : processModelFile content = FileOutcome.unresolved p ct := by
    simp [processModelFile, hskip, hp, hct, hres]
  refine ⟨ho, ?_, ?_, ?_, ?_, ?_⟩ <;>
    simp [finalContent, applyOutcome, ho, outcomeLog, runFiles, hpath, FileOutcome.isUpd]

/-- Witness for C6: an `(acme, music_video)` file is skipped unchanged and
the warning carries exactly those two values. -/
theorem C6_unresolved_warns_witness :
    processModelFile cC6 = FileOutcome.unresolved "acme".toList "music_video".toList ∧
    finalContent cC6 = cC6 ∧
    outcomeLog "m.ts".toList (processModelFile cC6) =
      ["  ⚠️  No mapping for provider=".toList ++ "acme".toList ++
        ", contentType=".toList ++ "music_video".toList] ∧
    (runFiles [("m.ts".toList, cC6)]).updated = 0 ∧
    (runFiles [("m.ts".toList, cC6)]).skipped = 1 ∧
    (runFiles [("m.ts".toList, cC6)]).files = [("m.ts".toList, cC6)] := by
  refine C6_unresolved_warns cC6 "acme".toList "music_video".toList "m.ts".toList
    (by decide) (by decide) (by decide) ?_ (by decide) (by decide)
  intro r h
  rw [show searchRecordIdL cC6 = none from by decide] at h
  exact Option.noConfusion h

/-- C7: when provider or contentType cannot be extracted the file is left
unchanged, counted as skipped, and no console line is printed for it —
even when its recordId is a key of `SPECIAL_MODELS`. -/
theorem C7_missing_field_silent (content path : List Char)
    (hskip : containsL s0 content = false)
    (hmiss : searchProviderL content = none ∨ searchContentTypeL content = none)
    (hpath : path ∉ EXCLUDED) :
    processModelFile content = FileOutcome.ineligible ∧
    finalContent content = content ∧
    outcomeLog path (processModelFile content) = [] ∧
    (runFiles [(path, content)]).updated = 0 ∧
    (runFiles [(path, content)]).skipped = 1 ∧
    (runFiles [(path, content)]).files = [(path, content)] ∧
    (runFiles [(path, content)]).logs = [] := by
  have ho : processModelFile content = FileOutcome.ineligible := by
    rcases hmiss with hp | hct
    · simp [processModelFile, hskip, hp]
    · cases hps : searchProviderL content <;> simp [processModelFile, hskip, hps, hct]
  refine ⟨ho, ?_, ?_, ?_, ?_, ?_, ?_⟩ <;>
    simp [finalContent, applyOutcome, ho, outcomeLog, runFiles, hpath, FileOutcome.isUpd]

/-- Witness for C7: a file whose recordId is the VEO3 override key but
which has no provider field is silently skipped, unchanged, with no line. -/
theorem C7_missing_field_silent_witness :
    searchRecordIdL cC7 = some "8aac94cb-5625-47f4-880c-4f0fd8bd83a1".toList ∧
    tabLookup "8aac94cb-5625-47f4-880c-4f0fd8bd83a1".toList SPECIAL_MODELS =
      some "KIE_AI_API_KEY_VEO3".toList ∧
    processModelFile cC7 = FileOutcome.ineligible ∧
    finalContent cC7 = cC7 ∧
    (runFiles [("veo.ts".toList, cC7)]).logs = [] := by
  have h := C7_missing_field_silent cC7 "veo.ts".toList (by decide)
    (Or.inl (by decide)) (by decide)
  exact ⟨by decide, by decide, h.1, h.2.1, h.2.2.2.2.2.2⟩

/-- C4 counterexample: a file whose only `use_api_key:` occurrence sits in
a comment line is nonetheless treated as already processed (the guard is a
plain substring test), although the same file without that comment line
would be updated; the claim's "an occurrence inside a comment or a string
does not count" is false of the code. -/
theorem C4_counterexample :
    containsL s0 cC4 = true ∧
    processModelFile cC4 = FileOutcome.alreadyAnnotated ∧
    processModelFile cC1 ≠ FileOutcome.alreadyAnnotated := by decide

/-- C4 (amended): a candidate file is treated as already processed exactly
when the string `use_api_key:` occurs anywhere in its text, regardless of
whether the occurrence is a field declaration, a comment or a string. -/
theorem C4_already_iff_substring (content : List Char) :
    processModelFile content = FileOutcome.alreadyAnnotated ↔
      containsL s0 content = true := by
  constructor
  · intro h
    cases hc : containsL s0 content with
    | true => rfl
    | false =>
      exfalso
      unfold processModelFile at h
      rw [hc] at h
      simp only [Bool.false_eq_true, if_false] at h
      cases hp : searchProviderL content with
      | none => rw [hp] at h; simp at h
      | some p2 =>
        cases hct : searchContentTypeL content with
        | none => rw [hp, hct] at h; simp at h
        | some ct2 =>
          rw [hp, hct] at h
          cases hres : resolveKey p2 ct2 (searchRecordIdL content) with
          | none => simp [hres] at h
          | some v2 => simp [hres] at h
  · exact processModelFile_already

/-- Witness for C4's amended statement at a concrete annotated file. -/
theorem C4_already_iff_substring_witness :
    processModelFile cC9 = FileOutcome.alreadyAnnotated ↔ containsL s0 cC9 = true :=
  C4_already_iff_substring cC9

/-- C8 counterexample: with the root directory missing, the run still ends
with the summary block shown (updated 0, skipped 0); the claim's "fatal
error, no summary" is false of the code, whose `rglob` walk simply yields
no candidates for a nonexistent root. -/
theorem C8_counterexample :
    (runMain false [("veo3.ts".toList, cC1)]).summaryShown = true ∧
    (runMain false [("veo3.ts".toList, cC1)]).updated = 0 ∧
    (runMain false [("veo3.ts".toList, cC1)]).skipped = 0 := by decide

/-- C8 (amended): when the root directory does not exist the walker
enumerates no candidate files, nothing is processed or rewritten, no
per-file line is printed, and the run completes normally printing the
summary with zero counts. -/
theorem C8_missing_root_summary (tree : List (List Char × List Char)) :
    (runMain false tree).summaryShown = true ∧
    (runMain false tree).updated = 0 ∧
    (runMain false tree).skipped = 0 ∧
    (runMain false tree).files = tree ∧
    (runMain false tree).logs = [] :=
  ⟨rfl, rfl, rfl, rfl, rfl⟩

/-- Witness for C8's amended statement on a concrete nonempty tree. -/
theorem C8_missing_root_summary_witness :
    (runMain false [("a.ts".toList, cC5)]).summaryShown = true ∧
    (runMain false [("a.ts".toList, cC5)]).updated = 0 ∧
    (runMain false [("a.ts".toList, cC5)]).skipped = 0 ∧
    (runMain false [("a.ts".toList, cC5)]).files = [("a.ts".toList, cC5)] ∧
    (runMain false [("a.ts".toList, cC5)]).logs = [] :=
  C8_missing_root_summary [("a.ts".toList, cC5)]

/-- C9 counterexample: a file skipped because the annotation field is
already present produces no console line of its own (it is only counted);
the claim's "a log line for every outcome" is false of the code. -/
theorem C9_counterexample :
    processModelFile cC9 = FileOutcome.alreadyAnnotated ∧
    (runFiles [("model.ts".toList, cC9)]).skipped = 1 ∧
    (runFiles [("model.ts".toList, cC9)]).logs = [] := by decide

/-- C9 (amended): the reporter prints a per-file line only for updated
files and for unresolved-mapping files (naming the provider and
contentType); already-annotated and ineligible files are counted as
skipped but produce no per-file line. -/
theorem C9_per_file_logging (path p ct d content : List Char)
    (hpath : path ∉ EXCLUDED) :
    outcomeLog path FileOutcome.alreadyAnnotated = [] ∧
    outcomeLog path FileOutcome.ineligible = [] ∧
    outcomeLog path (FileOutcome.updated d) = ["✅ Updated: ".toList ++ path] ∧
    outcomeLog path (FileOutcome.unresolved p ct) =
      ["  ⚠️  No mapping for provider=".toList ++ p ++ ", contentType=".toList ++ ct] ∧
    (runFiles [(path, content)]).logs = outcomeLog path (processModelFile content) := by
  refine ⟨rfl, rfl, rfl, rfl, ?_⟩
  simp [runFiles, hpath]

/-- Witness for C9's amended statement at a concrete path and file. -/
theorem C9_per_file_logging_witness :
    outcomeLog "n.ts".toList FileOutcome.alreadyAnnotated = [] ∧
    outcomeLog "n.ts".toList FileOutcome.ineligible = [] ∧
    outcomeLog "n.ts".toList (FileOutcome.updated "x".toList) =
      ["✅ Updated: ".toList ++ "n.ts".toList] ∧
    outcomeLog "n.ts".toList (FileOutcome.unresolved "p".toList "q".toList) =
      ["  ⚠️  No mapping for provider=".toList ++ "p".toList ++
        ", contentType=".toList ++ "q".toList] ∧
    (runFiles [("n.ts".toList, cC9)]).logs =
      outcomeLog "n.ts".toList (processModelFile cC9) :=
  C9_per_file_logging "n.ts".toList "p".toList "q".toList "x".toList cC9 (by decide)

/-- C10 counterexample: the provider value `a'b` contains a non-word
character, yet the file is not treated as provider-absent: the regex
accepts the quote after the truncated word-run `a`, extraction yields
`a`, and (the recordId being a VEO3 override) the file is updated rather
than silently skipped unchanged. -/
theorem C10_counterexample :
    searchProviderL cC10 = some ['a'] ∧
    processModelFile cC10 =
      FileOutcome.updated (applyValue "KIE_AI_API_KEY_VEO3".toList cC10) ∧
    finalContent cC10 ≠ cC10 := by decide

/-- C10 (amended): the provider pattern extracts a maximal nonempty run of
word characters directly after the opening quote and then requires a
quote character: a value whose word-run is followed by a non-word,
non-quote character (hyphen, dot, space, ...) yields no match at that
occurrence, while a value whose word-run is followed by a quote character
yields the truncated run, so such a file is not treated as
provider-absent. -/
theorem C10_provider_word_run (sp w tail rest : List Char) (bad q1 q2 : Char)
    (hsp : ∀ a ∈ sp, isSpaceCh a = true)
    (hw : ∀ a ∈ w, isWordCh a = true) (hw0 : w ≠ [])
    (hq1 : isQuoteCh q1 = true) (hq2 : isQuoteCh q2 = true)
    (hbw : isWordCh bad = false) (hbq : isQuoteCh bad = false) :
    matchFieldAt provLit isWordCh (provLit ++ sp ++ q1 :: (w ++ bad :: tail)) = none ∧
    matchFieldAt provLit isWordCh (provLit ++ sp ++ q1 :: (w ++ q2 :: rest)) = some w := by
  have hq1s : isSpaceCh q1 = false := by
    rcases (by simpa [isQuoteCh] using hq1 : q1 = dqc ∨ q1 = sqc) with rfl | rfl <;> decide
  have hq2w : isWordCh q2 = false := by
    rcases (by simpa [isQuoteCh] using hq2 : q2 = dqc ∨ q2 = sqc) with rfl | rfl <;> decide
  constructor
  · unfold matchFieldAt
    rw [List.append_assoc, if_pos (begins_append_self provLit _),
      List.drop_left provLit _, dropWhile_all_append q1 _ hsp hq1s]
    simp only [hq1, if_true]
    rw [takeWhile_all_append bad tail hw hbw, List.drop_left w (bad :: tail)]
    simp [List.isEmpty_iff, hw0, hbq]
  · unfold matchFieldAt
    rw [List.append_assoc, if_pos (begins_append_self provLit _),
      List.drop_left provLit _, dropWhile_all_append q1 _ hsp hq1s]
    simp only [hq1, if_true]
    rw [takeWhile_all_append q2 rest hw hq2w, List.drop_left w (q2 :: rest)]
    simp [List.isEmpty_iff, hw0, hq2]

/-- Witness for C10's amended statement: value word-run `kie` followed by
a hyphen gives no match; followed by a closing quote it is captured. -/
theorem C10_provider_word_run_witness :
    matchFieldAt provLit isWordCh
      (provLit ++ [' '] ++ dqc :: ("kie".toList ++ '-' :: "ai".toList)) = none ∧
    matchFieldAt provLit isWordCh
      (provLit ++ [' '] ++ dqc :: ("kie".toList ++ dqc :: ",".toList)) =
      some "kie".toList := by
  have h := C10_provider_word_run [' '] "kie".toList "ai".toList ",".toList '-' dqc dqc
    (by decide) (by decide) (by decide) (by decide) (by decide) (by decide) (by decide)
  exact h

/-- C3 counterexample: for a file whose anchor line is indented with four
spaces, the inserted line carries two spaces, not the anchor line's
indentation, so the output differs from the content the claim prescribes
(`cC3claim`, which matches the anchor indentation and is the only output
the claim allows here). -/
theorem C3_counterexample :
    processModelFile cC3 = FileOutcome.updated cC3out ∧ cC3out ≠ cC3claim := by decide

/-- C3 (amended): for a file whose text decomposes as `a ++ m ++ b` with
`m` the only match of the anchor pattern `contentType:\s*["\x27][^"\x27]+["\x27],`
and no occurrence of `MODEL_CONFIG.contentType)` anywhere, the rewritten
text is exactly `a ++ m ++ insLine v ++ b`: one line inserted directly
after the anchor match, indented with the fixed two spaces of the
replacement template, and no other byte changed.  (In general the
insertion happens after every anchor match, and an anchor whose
declaration lacks the trailing comma receives no inserted line.) -/
theorem C3_insertion_shape (v p ct a m b : List Char)
    (hskip : containsL s0 (a ++ (m ++ b)) = false)
    (hp : searchProviderL (a ++ (m ++ b)) = some p)
    (hct : searchContentTypeL (a ++ (m ++ b)) = some ct)
    (hres : resolveKey p ct (searchRecordIdL (a ++ (m ++ b))) = some v)
    (ha : ∀ i, i < a.length → matchAnchorAt ((a ++ (m ++ b)).drop i) = none)
    (hmm : matchAnchorAt (m ++ b) = some m.length)
    (hb : searchAnchorAny b = false)
    (hmc : containsL pMC ((a ++ m) ++ b) = false) :
    processModelFile (a ++ (m ++ b)) =
      FileOutcome.updated (a ++ (m ++ (insLine v ++ b))) := by
  rw [processModelFile_updated_eq hskip hp hct hres,
    applyValue_decomp (resolveKey_mem hres) ha hmm hb hmc]

/-- Witness for C3's amended statement on a concrete decomposed file. -/
theorem C3_insertion_shape_witness :
    processModelFile
      ("  provider: \"kie_ai\",\n  ".toList ++
        ("contentType: \"image_editing\",".toList ++ "\n".toList)) =
      FileOutcome.updated
        ("  provider: \"kie_ai\",\n  ".toList ++
          ("contentType: \"image_editing\",".toList ++
            (insLine "KIE_AI_API_KEY_IMAGE_EDITING".toList ++ "\n".toList))) := by
  refine C3_insertion_shape "KIE_AI_API_KEY_IMAGE_EDITING".toList "kie_ai".toList
    "image_editing".toList "  provider: \"kie_ai\",\n  ".toList
    "contentType: \"image_editing\",".toList "\n".toList
    (by decide) (by decide) (by decide) (by decide) ?_ (by decide) (by decide) (by decide)
  have hb : ∀ i, i < 24 → matchAnchorAt
      (("  provider: \"kie_ai\",\n  ".toList ++
        ("contentType: \"image_editing\",".toList ++ "\n".toList)).drop i) = none := by
    decide
  intro i hi
  exact hb i (by simpa using hi)

/-- One unfolding step of the `main` loop. -/
theorem runFiles_cons (name c : List Char) (rest : List (List Char × List Char)) :
    runFiles ((name, c) :: rest) =
      if name ∈ EXCLUDED then
        ⟨(runFiles rest).updated, (runFiles rest).skipped,
         (name, c) :: (runFiles rest).files, (runFiles rest).logs, true⟩
      else
        ⟨(if (processModelFile c).isUpd then (runFiles rest).updated + 1
            else (runFiles rest).updated),
         (if (processModelFile c).isUpd then (runFiles rest).skipped
            else (runFiles rest).skipped + 1),
         (name, applyOutcome (processModelFile c) c) :: (runFiles rest).files,
         outcomeLog name (processModelFile c) ++ (runFiles rest).logs, true⟩ := rfl

/-- C2 counterexample: on a tree holding one file whose contentType
declaration lacks a trailing comma, the second run's updated count is 1,
not 0 — the file resolves again (its rewritten contents equal its old
contents, so no annotation field ever appears) and is re-counted as
updated on every run, although the final contents agree with a single
run's. -/
theorem C2_counterexample :
    (runMain true (runMain true [("banana.ts".toList, cC2)]).files).updated = 1 ∧
    (runMain true (runMain true [("banana.ts".toList, cC2)]).files).files =
      (runMain true [("banana.ts".toList, cC2)]).files := by decide

/-- C2 (amended): running the tool twice produces the same final file
contents as running it once, and the second run's updated count is 0,
provided every file the first run counts as updated actually receives the
annotation field in its rewritten contents (which holds whenever the
anchor's trailing comma is present); a resolving file without it is
rewritten unchanged and re-counted as updated on every run. -/
theorem C2_second_run_skips (tree : List (List Char × List Char))
    (H : ∀ nc ∈ tree, nc.1 ∉ EXCLUDED →
      ∀ d, processModelFile nc.2 = FileOutcome.updated d → containsL s0 d = true) :
    (runFiles (runFiles tree).files).files = (runFiles tree).files ∧
    (runFiles (runFiles tree).files).updated = 0 := by
  induction tree with
  | nil => exact ⟨rfl, rfl⟩
  | cons nc rest ih =>
    obtain ⟨name, c⟩ := nc
    obtain ⟨ih1, ih2⟩ := ih fun nc2 h2 => H nc2 (List.mem_cons_of_mem _ h2)
    by_cases hn : name ∈ EXCLUDED
    · rw [runFiles_cons, if_pos hn]
      rw [show (⟨(runFiles rest).updated, (runFiles rest).skipped,
        (name, c) :: (runFiles rest).files, (runFiles rest).logs, true⟩ : RunResult).files =
          (name, c) :: (runFiles rest).files from rfl,
        runFiles_cons, if_pos hn]
      exact ⟨by simp [ih1], by simp [ih2]⟩
    · cases ho : processModelFile c with
      | updated d =>
        have hd : containsL s0 d = true :=
          H (name, c) (List.mem_cons_self _ _) hn d ho
        have ho2 : processModelFile d = FileOutcome.alreadyAnnotated :=
          processModelFile_already hd
        rw [runFiles_cons, if_neg hn, ho]
        rw [show (⟨(if (FileOutcome.updated d).isUpd then (runFiles rest).updated + 1
            else (runFiles rest).updated),
          (if (FileOutcome.updated d).isUpd then (runFiles rest).skipped
            else (runFiles rest).skipped + 1),
          (name, applyOutcome (FileOutcome.updated d) c) :: (runFiles rest).files,
          outcomeLog name (FileOutcome.updated d) ++ (runFiles rest).logs,
          true⟩ : RunResult).files =
            (name, d) :: (runFiles rest).files from rfl,
          runFiles_cons, if_neg hn, ho2]
        exact ⟨by simp [applyOutcome, FileOutcome.isUpd, ih1],
          by simp [FileOutcome.isUpd, ih2]⟩
      | alreadyAnnotated =>
        rw [runFiles_cons, if_neg hn, ho]
        rw [show (⟨(if FileOutcome.alreadyAnnotated.isUpd then (runFiles rest).updated + 1
            else (runFiles rest).updated),
          (if FileOutcome.alreadyAnnotated.isUpd then (runFiles rest).skipped
            else (runFiles rest).skipped + 1),
          (name, applyOutcome FileOutcome.alreadyAnnotated c) :: (runFiles rest).files,
          outcomeLog name FileOutcome.alreadyAnnotated ++ (runFiles rest).logs,
          true⟩ : RunResult).files =
            (name, c) :: (runFiles rest).files from rfl,
          runFiles_cons, if_neg hn, ho]
        exact ⟨by simp [applyOutcome, FileOutcome.isUpd, ih1],
          by simp [FileOutcome.isUpd, ih2]⟩
      | ineligible =>
        rw [runFiles_cons, if_neg hn, ho]
        rw [show (⟨(if FileOutcome.ineligible.isUpd then (runFiles rest).updated + 1
            else (runFiles rest).updated),
          (if FileOutcome.ineligible.isUpd then (runFiles rest).skipped
            else (runFiles rest).skipped + 1),
          (name, applyOutcome FileOutcome.ineligible c) :: (runFiles rest).files,
          outcomeLog name FileOutcome.ineligible ++ (runFiles rest).logs,
          true⟩ : RunResult).files =
            (name, c) :: (runFiles rest).files from rfl,
          runFiles_cons, if_neg hn, ho]
        exact ⟨by simp [applyOutcome, FileOutcome.isUpd, ih1],
          by simp [FileOutcome.isUpd, ih2]⟩
      | unresolved p2 ct2 =>
        rw [runFiles_cons, if_neg hn, ho]
        rw [show (⟨(if (FileOutcome.unresolved p2 ct2).isUpd then (runFiles rest).updated + 1
            else (runFiles rest).updated),
          (if (FileOutcome.unresolved p2 ct2).isUpd then (runFiles rest).skipped
            else (runFiles rest).skipped + 1),
          (name, applyOutcome (FileOutcome.unresolved p2 ct2) c) :: (runFiles rest).files,
          outcomeLog name (FileOutcome.unresolved p2 ct2) ++ (runFiles rest).logs,
          true⟩ : RunResult).files =
            (name, c) :: (runFiles rest).files from rfl,
          runFiles_cons, if_neg hn, ho]
        exact ⟨by simp [applyOutcome, FileOutcome.isUpd, ih1],
          by simp [FileOutcome.isUpd, ih2]⟩

/-- Witness for C2's amended statement: a one-file tree whose file gets
the annotation inserted; the second run changes nothing and updates 0. -/
theorem C2_second_run_skips_witness :
    (runFiles (runFiles [("veo3.ts".toList, cC1)]).files).files =
      (runFiles [("veo3.ts".toList, cC1)]).files ∧
    (runFiles (runFiles [("veo3.ts".toList, cC1)]).files).updated = 0 := by
  refine C2_second_run_skips [("veo3.ts".toList, cC1)] ?_
  intro nc hnc hx d hd
  rw [List.mem_singleton] at hnc
  subst hnc
  rw [show processModelFile cC1 =
    FileOutcome.updated (applyValue "KIE_AI_API_KEY_VEO3".toList cC1) from by decide] at hd
  injection hd with h2
  subst h2
  decide

end UpdateApiKeys
